import Mathlib

/-!
Verification development for the react-hook-form usage repository.

The repository contains call sites of a form-state-management library
(example components in src/components/Form1.tsx and in the cheatsheet)
together with a design-level specification of the minimal reactive
form-state store those call sites exercise.  The library implementation
itself is not part of the repository, so the core operations below are
modelled from the specification; the concrete rule sets and validators
are translated from the example components.

The file is organised as definitions first, then theorems.
-/

namespace RHF

/-- A leaf value of a form field: a string from a text input, or a number
when the registration asked for numeric conversion. -/
inductive FieldValue where
  | str (s : String)
  | num (n : Int)
deriving DecidableEq, Repr

/-- A field error records an optional message: a custom validator that
returns a bare boolean failure produces an error with no message. -/
abbrev FieldError := Option String

/-- Modelled from the spec: the built-in validation rules (bounds, length,
pattern) of the Validator Runner, which is not part of the repository;
each carries its parameters and failure message. -/
inductive Builtin where
  | minLength (n : Nat) (msg : String)
  | maxLength (n : Nat) (msg : String)
  | minVal (n : Int) (msg : String)
  | maxVal (n : Int) (msg : String)
  | pattern (p : String → Bool) (msg : String)

/-- A custom validator: returns `none` on success, `some e` on failure,
where `e` is the optional message carried by the resulting field error. -/
abbrev CustomRule := FieldValue → Option FieldError

/-- Modelled from the spec: the rule set attached to a field at
registration time, kept in the declaration order of the source:
a required rule, then built-ins, then custom validators. -/
structure RuleSet where
  required : Option FieldError := none
  builtins : List Builtin := []
  customs : List CustomRule := []

/-- A value counts as empty for the required rule when it is the empty
string. -/
def isEmptyValue : FieldValue → Bool
  | .str s => s = ""
  | .num _ => false

/-- Modelled from the spec: the check performed by the required rule. -/
def checkRequired (m : FieldError) (v : FieldValue) : Option FieldError :=
  if isEmptyValue v then some m else none

/-- Modelled from the spec: the check performed by one built-in rule.
Length and pattern rules apply to string values, bounds to numeric
values; a rule of the other kind passes. -/
def checkBuiltin : Builtin → FieldValue → Option FieldError
  | .minLength n msg, .str s => if s.length < n then some (some msg) else none
  | .maxLength n msg, .str s => if n < s.length then some (some msg) else none
  | .minVal n msg, .num m => if m < n then some (some msg) else none
  | .maxVal n msg, .num m => if n < m then some (some msg) else none
  | .pattern p msg, .str s => if p s then none else some (some msg)
  | _, _ => none

/-- Modelled from the spec: run the built-in rules in declaration order,
stopping at the first failure. -/
def runBuiltins : List Builtin → FieldValue → Option FieldError
  | [], _ => none
  | b :: bs, v =>
    match checkBuiltin b v with
    | some e => some e
    | none => runBuiltins bs v

/-- Modelled from the spec: run the custom validators in declaration
order, stopping at the first failure. -/
def runCustoms : List CustomRule → FieldValue → Option FieldError
  | [], _ => none
  | c :: cs, v =>
    match c v with
    | some e => some e
    | none => runCustoms cs v

/-- Modelled from the spec: the Validator Runner for a single field,
which is not part of the repository.  It evaluates the required rule
first, then the built-ins, then the custom validators, and returns the
error of the first failing rule, or `none` when every rule passes. -/
def runRules (rs : RuleSet) (v : FieldValue) : Option FieldError :=
  match rs.required with
  | some m =>
    match checkRequired m v with
    | some e => some e
    | none =>
      match runBuiltins rs.builtins v with
      | some e => some e
      | none => runCustoms rs.customs v
  | none =>
    match runBuiltins rs.builtins v with
    | some e => some e
    | none => runCustoms rs.customs v

/-- The rule set flattened to a single list of checks in the order the
spec prescribes: required, then built-ins in declaration order, then
custom validators in declaration order. -/
def ruleChecks (rs : RuleSet) : List CustomRule :=
  (match rs.required with
   | some m => [checkRequired m]
   | none => []) ++ rs.builtins.map checkBuiltin ++ rs.customs

/-- The result the spec describes in words: the error of the first
failing check in the flattened ordered list. -/
def firstFailure (checks : List CustomRule) (v : FieldValue) : Option FieldError :=
  checks.findSome? (fun c => c v)

/-- Modelled from the spec: a field record of the FieldStore, which is
not part of the repository: current and default values, dirty and
touched flags, the optional error, and the rule set attached at
registration. -/
structure FieldRecord where
  current : FieldValue
  defaultV : FieldValue
  dirty : Bool
  touched : Bool
  error : Option FieldError
  rules : RuleSet

/-- Modelled from the spec: the Validator Runner committing its result:
the error of the first failing rule, or `none` (cleared) when all rules
pass. -/
def validateField (r : FieldRecord) : FieldRecord :=
  { r with error := runRules r.rules r.current }

/-- A concrete rule set used to witness the rule-ordering theorem. -/
def demoRuleSet : RuleSet :=
  { required := some (some "req")
    builtins := [.minLength 3 "min3"]
    customs := [fun v => if v = .str "abcd" then some (some "no abcd") else none] }

/-- A concrete field record used to witness store-level theorems. -/
def demoRecord : FieldRecord :=
  { current := .str ""
    defaultV := .str ""
    dirty := false
    touched := false
    error := none
    rules := {} }

/-- Modelled from the spec: the FieldStore, which is not part of the
repository: an ordered association of field paths to field records. -/
structure FieldStore where
  fields : List (String × FieldRecord)

/-- A fresh field record for a path first written by `setValue`. -/
def freshRecord (v : FieldValue) : FieldRecord :=
  { current := v, defaultV := v, dirty := false, touched := false
    error := none, rules := {} }

/-- Modelled from the spec: `setValue` updating one field record with a
new current value and marking it dirty when the value differs from the
default. -/
def setRecordValue (r : FieldRecord) (v : FieldValue) : FieldRecord :=
  { r with current := v, dirty := decide (v ≠ r.defaultV) }

/-- Write a value at a path in the field list, creating the record on
first write. -/
def setFields : List (String × FieldRecord) → String → FieldValue → List (String × FieldRecord)
  | [], p, v => [(p, freshRecord v)]
  | (q, r) :: rest, p, v =>
    if q = p then (q, setRecordValue r v) :: rest
    else (q, r) :: setFields rest p v

/-- Modelled from the spec: the FieldStore `setValue` operation. -/
def setValue (s : FieldStore) (p : String) (v : FieldValue) : FieldStore :=
  ⟨setFields s.fields p v⟩

/-- Look up the record stored at a path in a field list. -/
def getFields : List (String × FieldRecord) → String → Option FieldRecord
  | [], _ => none
  | (q, r) :: rest, p => if q = p then some r else getFields rest p

/-- Look up the record stored at a path. -/
def lookupRecord (s : FieldStore) (p : String) : Option FieldRecord :=
  getFields s.fields p

/-- Modelled from the spec: the FieldStore `getValue` accessor. -/
def getValue (s : FieldStore) (p : String) : Option FieldValue :=
  (lookupRecord s p).map (·.current)

/-- Modelled from the spec: `getSnapshot`, the full record of current
values, derived from the field records. -/
def getSnapshot (s : FieldStore) : List (String × FieldValue) :=
  s.fields.map (fun pr => (pr.1, pr.2.current))

/-- The value a snapshot associates to a path. -/
def snapshotValue : List (String × FieldValue) → String → Option FieldValue
  | [], _ => none
  | (q, v) :: rest, p => if q = p then some v else snapshotValue rest p

/-- Apply a sequence of `setValue` calls in order. -/
def applySets (s : FieldStore) (ops : List (String × FieldValue)) : FieldStore :=
  ops.foldl (fun t pv => setValue t pv.1 pv.2) s

/-- The last value written to a path by a sequence of writes, later
writes taking precedence. -/
def lastWrite : List (String × FieldValue) → String → Option FieldValue
  | [], _ => none
  | (q, v) :: rest, p =>
    match lastWrite rest p with
    | some w => some w
    | none => if q = p then some v else none

/-- Modelled from the spec: a notification batch: either the list of
changed paths of one mutating call, or the all-paths batch that `reset`
emits. -/
inductive Batch where
  | paths (ps : List String)
  | all

/-- Modelled from the spec: a subscriber of the Subscription Registry,
which is not part of the repository: `none` means no path filter
(subscribed to all fields). -/
structure Subscriber where
  filter : Option (List String)

/-- Modelled from the spec: whether the Subscription Registry invokes a
subscriber for a batch: a path-filtered subscriber is invoked only when
one of its paths is in the batch; an unfiltered subscriber is invoked on
every batch. -/
def deliver (sub : Subscriber) : Batch → Bool
  | .all => true
  | .paths ps =>
    match sub.filter with
    | none => true
    | some qs => qs.any (fun q => ps.contains q)

/-- Modelled from the spec: `setValue` as a mutating operation that also
emits the notification batch for the affected path. -/
def setValueOp (s : FieldStore) (p : String) (v : FieldValue) : FieldStore × Batch :=
  (setValue s p v, .paths [p])

/-- Reset one field record: current and default replaced by the given
default, dirty and touched flags and the error cleared. -/
def resetRecord (r : FieldRecord) (d : FieldValue) : FieldRecord :=
  { r with current := d, defaultV := d, dirty := false, touched := false, error := none }

/-- Modelled from the spec: `reset`, which is not part of the
repository.  With no argument every record returns to its original
default; with new defaults the store is rebuilt from them, keeping the
rules of paths already registered.  It emits the all-paths batch. -/
def resetOp (s : FieldStore) (d : Option (List (String × FieldValue))) : FieldStore × Batch :=
  match d with
  | none => (⟨s.fields.map (fun pr => (pr.1, resetRecord pr.2 pr.2.defaultV))⟩, .all)
  | some ds =>
    (⟨ds.map (fun pv =>
        (pv.1, match lookupRecord s pv.1 with
               | some r => resetRecord r pv.2
               | none => freshRecord pv.2))⟩, .all)

/-- A concrete store with one dirty, touched, errored field, used to
witness the reset theorem. -/
def dirtyStore : FieldStore :=
  ⟨[("a", { current := .str "x", defaultV := .str "", dirty := true,
            touched := true, error := some (some "bad"), rules := {} })]⟩

/-- Modelled from the spec: the bookkeeping an async validator run
needs: a counter handing out run identifiers, the identifier and value
of the latest issued run, and the committed error. -/
structure AsyncField where
  counter : Nat
  latest : Nat
  latestValue : FieldValue
  error : Option FieldError

/-- Modelled from the spec: issuing an async validation run for a new
value: the run gets a fresh identifier and becomes the latest run. -/
def issueValidation (s : AsyncField) (v : FieldValue) : AsyncField × Nat :=
  ({ s with counter := s.counter + 1, latest := s.counter, latestValue := v }, s.counter)

/-- Modelled from the spec: an async run resolving with a result: the
result commits to the field error only when the run is still the latest
one; a superseded result is discarded. -/
def resolveValidation (s : AsyncField) (runId : Nat) (r : Option FieldError) : AsyncField :=
  if runId = s.latest then { s with error := r } else s

/-- Modelled from the spec: `validateAll` aggregating, per field path,
the error of each registered field whose rules fail on its current
value. -/
def validateAllErrors (s : FieldStore) : List (String × FieldError) :=
  s.fields.filterMap (fun pr => (runRules pr.2.rules pr.2.current).map (fun e => (pr.1, e)))

/-- An event of one submission attempt: the success callback invoked
with a snapshot, or the failure callback invoked with the aggregate
error set. -/
inductive SubmitEvent where
  | onValid (snap : List (String × FieldValue))
  | onInvalid (errs : List (String × FieldError))

/-- Whether an event is a success-callback invocation. -/
def isOnValid : SubmitEvent → Bool
  | .onValid _ => true
  | .onInvalid _ => false

/-- Modelled from the spec: the Submission Coordinator `submit`, which
is not part of the repository: it runs `validateAll` and returns the
trace of callback invocations: the success callback with the current
snapshot when every field passes, otherwise the failure callback with
the aggregate error set. -/
def submit (s : FieldStore) : List SubmitEvent :=
  let errs := validateAllErrors s
  if errs.isEmpty then [.onValid (getSnapshot s)] else [.onInvalid errs]

/-- A concrete store whose single field passes its required rule, used
to witness the submit theorem. -/
def validStore : FieldStore :=
  ⟨[("lastName", { current := .str "jain", defaultV := .str "", dirty := true,
                   touched := false, error := none,
                   rules := { required := some (some "This is required") } })]⟩

/-- A concrete store whose single field fails its required rule, used to
witness the submit theorem. -/
def invalidStore : FieldStore :=
  ⟨[("lastName", { current := .str "", defaultV := .str "", dirty := false,
                   touched := false, error := none,
                   rules := { required := some (some "This is required") } })]⟩

/-- The payload of one array entry in the field-array examples. -/
abbrev ArrayItem := String

/-- Modelled from the spec: the Array Controller state, which is not
part of the repository: the ordered entries, each carrying the stable
key assigned at its creation, and the counter handing out fresh keys. -/
structure ArrayState where
  entries : List (Nat × ArrayItem)
  nextKey : Nat

/-- Modelled from the spec: the structural operations of the Array
Controller. -/
inductive ArrayOp where
  | append (it : ArrayItem)
  | prepend (it : ArrayItem)
  | insert (i : Nat) (it : ArrayItem)
  | remove (i : Nat)
  | swap (i j : Nat)
  | move (src dst : Nat)
  | update (i : Nat) (it : ArrayItem)
  | replace (its : List ArrayItem)

/-- Exchange the entries at two valid positions; out-of-range indices
leave the list unchanged. -/
def swapPairs (l : List (Nat × ArrayItem)) (i j : Nat) : List (Nat × ArrayItem) :=
  match l[i]?, l[j]? with
  | some x, some y => (l.set i y).set j x
  | _, _ => l

/-- Move the entry at one position to another, shifting the rest;
an out-of-range source leaves the list unchanged. -/
def movePairs (l : List (Nat × ArrayItem)) (src dst : Nat) : List (Nat × ArrayItem) :=
  match l[src]? with
  | some x => (l.eraseIdx src).insertIdx dst x
  | none => l

/-- Replace the item at a position, keeping the stable key of the
entry; an out-of-range index leaves the list unchanged. -/
def updatePairs (l : List (Nat × ArrayItem)) (i : Nat) (it : ArrayItem) : List (Nat × ArrayItem) :=
  match l[i]? with
  | some kx => l.set i (kx.1, it)
  | none => l

/-- Build entries for a list of items, assigning consecutive fresh keys
starting at the given counter. -/
def freshEntries (k : Nat) : List ArrayItem → List (Nat × ArrayItem)
  | [] => []
  | it :: rest => (k, it) :: freshEntries (k + 1) rest

/-- Modelled from the spec: one step of the Array Controller.  Entry
creation (append, prepend, insert, replace) assigns keys from the
counter; reordering and removal preserve the keys of surviving
entries. -/
def applyArrayOp (s : ArrayState) : ArrayOp → ArrayState
  | .append it => ⟨s.entries ++ [(s.nextKey, it)], s.nextKey + 1⟩
  | .prepend it => ⟨(s.nextKey, it) :: s.entries, s.nextKey + 1⟩
  | .insert i it => ⟨s.entries.insertIdx i (s.nextKey, it), s.nextKey + 1⟩
  | .remove i => ⟨s.entries.eraseIdx i, s.nextKey⟩
  | .swap i j => ⟨swapPairs s.entries i j, s.nextKey⟩
  | .move src dst => ⟨movePairs s.entries src dst, s.nextKey⟩
  | .update i it => ⟨updatePairs s.entries i it, s.nextKey⟩
  | .replace its => ⟨freshEntries s.nextKey its, s.nextKey + its.length⟩

/-- Apply a sequence of Array Controller operations in order. -/
def applyArrayOps (s : ArrayState) (ops : List ArrayOp) : ArrayState :=
  ops.foldl applyArrayOp s

/-- The stable keys of the entries, in order. -/
def keysOf (s : ArrayState) : List Nat :=
  s.entries.map Prod.fst

/-- The key invariant of the Array Controller: the stable keys of the
live entries are pairwise distinct, and every key ever handed out is
below the counter, so a fresh key can never collide with a live or a
previously removed key. -/
def KeyInv (s : ArrayState) : Prop :=
  (keysOf s).Nodup ∧ ∀ k ∈ keysOf s, k < s.nextKey

/-- Modelled from the spec: the validation-tracking state of one field:
its current and default values, its rules, its committed error, and the
value and result of the most recent validation run, if any. -/
structure VState where
  current : FieldValue
  defaultV : FieldValue
  rules : RuleSet
  error : Option FieldError
  lastRun : Option (FieldValue × Option FieldError)

/-- Modelled from the spec: the operations touching one field: a value
write that skips validation (spec section 4.1: `setValue` does not run
validation unless requested), a value change that validates, an
explicit validation, and a reset. -/
inductive VOp where
  | setNoValidate (v : FieldValue)
  | changeAndValidate (v : FieldValue)
  | validate
  | reset

/-- Modelled from the spec: one step of the per-field validation state
machine; validating operations commit the Validator Runner result as
the error and record the run. -/
def vStep (s : VState) : VOp → VState
  | .setNoValidate v => { s with current := v }
  | .changeAndValidate v =>
    { s with current := v, error := runRules s.rules v
             lastRun := some (v, runRules s.rules v) }
  | .validate =>
    { s with error := runRules s.rules s.current
             lastRun := some (s.current, runRules s.rules s.current) }
  | .reset => { s with current := s.defaultV, error := none, lastRun := none }

/-- The claim as stated: the error is present exactly when the most
recent validation run was for the current value and failed. -/
def StrongInv (s : VState) : Prop :=
  s.error.isSome = true ↔
    ∃ r : FieldValue × Option FieldError,
      s.lastRun = some r ∧ r.1 = s.current ∧ r.2.isSome = true

/-- The amended invariant: the error is present exactly when the most
recent validation run, whatever value it used, failed. -/
def WeakInv (s : VState) : Prop :=
  s.error.isSome = true ↔
    ∃ r : FieldValue × Option FieldError, s.lastRun = some r ∧ r.2.isSome = true

/-- A rule set with a required rule only, used for the validation-state
counterexample. -/
def requiredOnlyRules : RuleSet :=
  { required := some (some "req") }

/-- The initial state of a field with an empty default and the required
rule. -/
def vInit : VState :=
  { current := .str "", defaultV := .str "", rules := requiredOnlyRules
    error := none, lastRun := none }

/-- Translated from src/components/Form1.tsx: the custom validate rule
on firstName returns the boolean comparison of the value with the
string "archit", so a failure carries no message. -/
def form1FirstNameValidate : CustomRule := fun v =>
  if v = .str "archit" then none else some none

/-- Translated from src/components/Form1.tsx: the registration options
of firstName: a required rule with the message "first name is
required", then the custom validate rule. -/
def form1FirstNameRules : RuleSet :=
  { required := some (some "first name is required")
    customs := [form1FirstNameValidate] }

/-- Translated from src/components/Form1.tsx: the error paragraph
renders the optional message of the field error, the empty string when
the error is absent or carries no message. -/
def renderedErrorMessage (e : Option FieldError) : String :=
  (e.bind fun m => m).getD ""

/-- Translated from the WatchExample of the cheatsheet: the password
and confirm-password values and the committed confirm-password error. -/
structure WatchState where
  password : String
  confirmPassword : String
  confirmError : Option FieldError

/-- Translated from the WatchExample: the confirmPassword validate rule
compares the value with the password read via getValues at the moment
of validation and otherwise fails with "Passwords must match". -/
def confirmPasswordValidate (st : WatchState) (value : String) : Option FieldError :=
  if value = st.password then none else some (some "Passwords must match")

/-- Write the password field; no validation of confirmPassword runs,
since its registration declares no dependency on password. -/
def setPassword (st : WatchState) (v : String) : WatchState :=
  { st with password := v }

/-- Validate confirmPassword against the password at this moment and
commit the result as the confirm-password error. -/
def validateConfirmPassword (st : WatchState) : WatchState :=
  { st with confirmError := confirmPasswordValidate st st.confirmPassword }

end RHF

namespace RHF

theorem runBuiltins_eq_findSome (bs : List Builtin) (v : FieldValue) :
    runBuiltins bs v = (bs.map checkBuiltin).findSome? (fun c => c v) := by
  induction bs with
  | nil => rfl
  | cons b bs ih =>
    simp only [runBuiltins, List.map_cons, List.findSome?_cons]
    cases checkBuiltin b v with
    | none => simpa using ih
    | some e => rfl

theorem runCustoms_eq_findSome (cs : List CustomRule) (v : FieldValue) :
    runCustoms cs v = cs.findSome? (fun c => c v) := by
  induction cs with
  | nil => rfl
  | cons c cs ih =>
    simp only [runCustoms, List.findSome?_cons]
    cases c v with
    | none => simpa using ih
    | some e => rfl

theorem findSome?_append {α β : Type} (l₁ l₂ : List α) (f : α → Option β) :
    (l₁ ++ l₂).findSome? f =
      match l₁.findSome? f with
      | some b => some b
      | none => l₂.findSome? f := by
  induction l₁ with
  | nil => simp
  | cons a l₁ ih =>
    simp only [List.cons_append, List.findSome?_cons]
    cases f a with
    | none => simpa using ih
    | some b => rfl

theorem runRules_eq_firstFailure (rs : RuleSet) (v : FieldValue) :
    runRules rs v = firstFailure (ruleChecks rs) v := by
  unfold runRules firstFailure ruleChecks
  cases rs.required with
  | none =>
    rw [List.nil_append, findSome?_append,
      runBuiltins_eq_findSome, runCustoms_eq_findSome]
    cases (rs.builtins.map checkBuiltin).findSome? (fun c => c v) <;> rfl
  | some m =>
    simp only [List.cons_append, List.nil_append, List.findSome?_cons]
    cases checkRequired m v with
    | some e => rfl
    | none =>
      rw [findSome?_append, runBuiltins_eq_findSome, runCustoms_eq_findSome]
      cases (rs.builtins.map checkBuiltin).findSome? (fun c => c v) <;> rfl

theorem findSome?_eq_of_first {α β : Type} (l : List α) (f : α → Option β)
    (i : Nat) (a : α) (b : β) (ha : l[i]? = some a) (hfail : f a = some b)
    (hbefore : ∀ j, j < i → ∀ d, l[j]? = some d → f d = none) :
    l.findSome? f = some b := by
  induction l generalizing i with
  | nil => simp at ha
  | cons x xs ih =>
    cases i with
    | zero =>
      simp only [List.getElem?_cons_zero, Option.some.injEq] at ha
      subst ha
      simp [List.findSome?_cons, hfail]
    | succ k =>
      have hx : f x = none := hbefore 0 (Nat.succ_pos k) x (by simp)
      simp only [List.getElem?_cons_succ] at ha
      rw [List.findSome?_cons, hx]
      exact ih k ha (fun j hj d hd => hbefore (j + 1) (Nat.succ_lt_succ hj) d (by simpa using hd))

/-- C2: for every field with an attached rule set, validation evaluates
the required rule first, then the built-ins in declaration order, then
the custom validators in declaration order; it stops at the first
failing rule, whose message becomes the field error, and if every rule
passes the field error is cleared. -/
theorem C2_rule_evaluation_order (rs : RuleSet) (v : FieldValue) (r : FieldRecord) :
    runRules rs v = firstFailure (ruleChecks rs) v
    ∧ ((∀ c ∈ ruleChecks rs, c v = none) → (validateField { r with rules := rs, current := v }).error = none)
    ∧ (∀ (i : Nat) (c : CustomRule) (e : FieldError),
        (ruleChecks rs)[i]? = some c → c v = some e →
        (∀ (j : Nat), j < i → ∀ (d : CustomRule), (ruleChecks rs)[j]? = some d → d v = none) →
        (validateField { r with rules := rs, current := v }).error = some e) := by
  refine ⟨runRules_eq_firstFailure rs v, ?_, ?_⟩
  · intro hall
    show runRules rs v = none
    rw [runRules_eq_firstFailure rs v]
    unfold firstFailure
    exact List.findSome?_eq_none_iff.mpr (fun c hc => hall c hc)
  · intro i c e hc hfail hbefore
    show runRules rs v = some e
    rw [runRules_eq_firstFailure rs v]
    exact findSome?_eq_of_first (ruleChecks rs) (fun c => c v) i c e hc hfail hbefore

/-- Witness for the rule-ordering theorem: on a value passing every rule
the error is cleared, and on a too-short value the first failing rule is
the minimum-length built-in, whose message becomes the error. -/
theorem C2_rule_evaluation_order_witness :
    (validateField { demoRecord with rules := demoRuleSet, current := .str "abc" }).error = none
    ∧ (validateField { demoRecord with rules := demoRuleSet, current := .str "ab" }).error
        = some (some "min3") := by
  constructor
  · refine (C2_rule_evaluation_order demoRuleSet (.str "abc") demoRecord).2.1 ?_
    intro c hc
    simp only [ruleChecks, demoRuleSet, List.cons_append, List.nil_append,
      List.map_cons, List.map_nil, List.mem_cons, List.not_mem_nil, or_false] at hc
    rcases hc with rfl | rfl | rfl <;> rfl
  · refine (C2_rule_evaluation_order demoRuleSet (.str "ab") demoRecord).2.2 1
      (checkBuiltin (.minLength 3 "min3")) (some "min3") rfl rfl ?_
    intro j hj d hd
    interval_cases j
    simp only [ruleChecks, demoRuleSet, List.cons_append, List.nil_append,
      List.map_cons, List.map_nil, List.getElem?_cons_zero, Option.some.injEq] at hd
    subst hd
    rfl

theorem getValue_setValue (s : FieldStore) (p q : String) (v : FieldValue) :
    getValue (setValue s p v) q = if q = p then some v else getValue s q := by
  obtain ⟨l⟩ := s
  induction l with
  | nil =>
    by_cases h : q = p
    · subst h
      simp [getValue, lookupRecord, setValue, setFields, getFields, freshRecord]
    · simp [getValue, lookupRecord, setValue, setFields, getFields, freshRecord,
        h, Ne.symm h]
  | cons pr rest ih =>
    obtain ⟨a, r⟩ := pr
    by_cases hap : a = p
    · subst hap
      by_cases haq : a = q
      · subst haq
        simp [getValue, lookupRecord, setValue, setFields, getFields, setRecordValue]
      · simp [getValue, lookupRecord, setValue, setFields, getFields, haq, Ne.symm haq]
    · by_cases haq : a = q
      · subst haq
        simp [getValue, lookupRecord, setValue, setFields, getFields,
          hap, Ne.symm hap]
      · have ih' := ih
        simp only [getValue, lookupRecord, setValue] at ih' ⊢
        rw [show setFields ((a, r) :: rest) p v = (a, r) :: setFields rest p v from
          by simp [setFields, hap]]
        simpa [getFields, haq] using ih'

theorem snapshotValue_getSnapshot (s : FieldStore) (p : String) :
    snapshotValue (getSnapshot s) p = getValue s p := by
  obtain ⟨l⟩ := s
  induction l with
  | nil => rfl
  | cons pr rest ih =>
    obtain ⟨a, r⟩ := pr
    by_cases h : a = p <;>
      simp_all [snapshotValue, getSnapshot, getValue, lookupRecord, getFields, h]

/-- C4: for every finite sequence of `setValue` calls, the snapshot
returned by `getSnapshot` afterwards maps each path to the last value
written to that path; a path never written keeps its prior value
(last-write-wins, independent of interleaved writes to other paths). -/
theorem C4_setValue_last_write_wins (s : FieldStore) (ops : List (String × FieldValue)) (p : String) :
    snapshotValue (getSnapshot (applySets s ops)) p =
      match lastWrite ops p with
      | some v => some v
      | none => getValue s p := by
  rw [snapshotValue_getSnapshot]
  induction ops generalizing s with
  | nil => rfl
  | cons qv rest ih =>
    obtain ⟨q, v⟩ := qv
    show getValue (applySets (setValue s q v) rest) p = _
    rw [ih (setValue s q v), getValue_setValue]
    cases hl : lastWrite rest p with
    | some w => simp [lastWrite, hl]
    | none =>
      by_cases h : q = p
      · subst h
        simp [lastWrite, hl]
      · simp [lastWrite, hl, h, Ne.symm h]

/-- C5: after `reset`, regardless of prior state, the snapshot equals
the given (or original) defaults exactly, all dirty/touched/error flags
are cleared, and every subscriber is notified regardless of which paths
changed. -/
theorem C5_reset_restores_defaults (s : FieldStore) (d : Option (List (String × FieldValue))) :
    (getSnapshot (resetOp s d).1 =
      match d with
      | some ds => ds
      | none => s.fields.map (fun pr => (pr.1, pr.2.defaultV)))
    ∧ (∀ pr ∈ (resetOp s d).1.fields,
        pr.2.dirty = false ∧ pr.2.touched = false ∧ pr.2.error = none)
    ∧ (∀ sub : Subscriber, deliver sub (resetOp s d).2 = true) := by
  refine ⟨?_, ?_, ?_⟩
  · cases d with
    | none => simp [resetOp, getSnapshot, resetRecord]
    | some ds =>
      simp only [resetOp, getSnapshot, List.map_map]
      induction ds with
      | nil => rfl
      | cons pv rest ihds =>
        obtain ⟨p, v⟩ := pv
        simp only [List.map_cons, Function.comp_apply, ihds]
        cases lookupRecord s p <;> simp [resetRecord, freshRecord]
  · intro pr hpr
    cases d with
    | none =>
      simp only [resetOp, List.mem_map] at hpr
      obtain ⟨qr, _, rfl⟩ := hpr
      exact ⟨rfl, rfl, rfl⟩
    | some ds =>
      simp only [resetOp, List.mem_map] at hpr
      obtain ⟨pv, _, rfl⟩ := hpr
      cases lookupRecord s pv.1 <;> exact ⟨rfl, rfl, rfl⟩
  · intro sub
    cases d <;> rfl

/-- Witness for the reset theorem at a concrete store: the dirty,
touched, errored field returns to its default and the flags clear. -/
theorem C5_reset_restores_defaults_witness :
    getSnapshot (resetOp dirtyStore none).1 = [("a", .str "")]
    ∧ (∀ pr ∈ (resetOp dirtyStore none).1.fields,
        pr.2.dirty = false ∧ pr.2.touched = false ∧ pr.2.error = none) := by
  have h := C5_reset_restores_defaults dirtyStore none
  exact ⟨h.1, h.2.1⟩

/-- C6: a subscriber registered only to path `a` is never invoked for a
batch triggered solely by a change to a different path `b`; it is
invoked exactly when one of its paths is in the changed batch, while a
subscriber with no path filter is invoked on every batch. -/
theorem C6_path_scoped_subscriptions (a b : String) (s : FieldStore) (v : FieldValue)
    (changed : List String) :
    (a ≠ b → deliver ⟨some [a]⟩ (setValueOp s b v).2 = false)
    ∧ (deliver ⟨some [a]⟩ (.paths changed) = true ↔ a ∈ changed)
    ∧ (deliver ⟨none⟩ (.paths changed) = true)
    ∧ (∀ batch : Batch, deliver ⟨none⟩ batch = true) := by
  refine ⟨?_, ?_, rfl, ?_⟩
  · intro hab
    simp [deliver, setValueOp, hab]
  · simp [deliver]
  · intro batch
    cases batch <;> rfl

/-- Witness for the subscription theorem: a subscriber to path `a` is
not invoked when only path `b` changes. -/
theorem C6_path_scoped_subscriptions_witness :
    deliver ⟨some ["a"]⟩ (setValueOp dirtyStore "b" (.str "x")).2 = false := by
  exact (C6_path_scoped_subscriptions "a" "b" dirtyStore (.str "x") []).1 (by decide)

/-- C3: when a second async validation is issued before the first
resolves, only the result of the latest run commits: even if the
superseded run resolves last, the field error reflects the latest run
result only, and resolving a run that is no longer the latest leaves
the state unchanged. -/
theorem C3_async_latest_run_wins (s : AsyncField) (vx vy : FieldValue)
    (rx ry : Option FieldError) :
    (resolveValidation
        (resolveValidation (issueValidation (issueValidation s vx).1 vy).1
          (issueValidation (issueValidation s vx).1 vy).2 ry)
        (issueValidation s vx).2 rx).error = ry
    ∧ (∀ (t : AsyncField) (runId : Nat) (r : Option FieldError),
        runId ≠ t.latest → resolveValidation t runId r = t) := by
  constructor
  · have hne : s.counter ≠ s.counter + 1 := Nat.ne_of_lt (Nat.lt_succ_self _)
    simp [issueValidation, resolveValidation, hne]
  · intro t runId r h
    simp [resolveValidation, h]

/-- Witness for the async race theorem: a concrete stale run id leaves
a concrete state untouched. -/
theorem C3_async_latest_run_wins_witness :
    resolveValidation ⟨3, 2, .str "y", some (some "taken")⟩ 1 none
      = ⟨3, 2, .str "y", some (some "taken")⟩ := by
  exact (C3_async_latest_run_wins ⟨0, 0, .str "", none⟩ (.str "x") (.str "y") none none).2
    ⟨3, 2, .str "y", some (some "taken")⟩ 1 none (by decide)

/-- C1: `submit` on a store whose registered fields all pass validation
invokes the success callback exactly once with a snapshot equal to the
current values; on a store with at least one invalid field it invokes
the failure callback with the aggregate error set and never invokes the
success callback. -/
theorem C1_submit_gates_on_validation (s : FieldStore) :
    (validateAllErrors s = [] →
      submit s = [.onValid (getSnapshot s)]
      ∧ (submit s).countP isOnValid = 1)
    ∧ (validateAllErrors s ≠ [] →
      submit s = [.onInvalid (validateAllErrors s)]
      ∧ ∀ snap, SubmitEvent.onValid snap ∉ submit s) := by
  constructor
  · intro h
    have he : (validateAllErrors s).isEmpty = true := by simp [h]
    constructor
    · simp [submit, he]
    · simp [submit, he, List.countP, List.countP.go, isOnValid]
  · intro h
    have he : (validateAllErrors s).isEmpty = false := by
      cases hv : validateAllErrors s with
      | nil => exact absurd hv h
      | cons x xs => rfl
    constructor
    · simp [submit, he]
    · intro snap hmem
      simp only [submit, he, Bool.false_eq_true, if_false, List.mem_singleton] at hmem
      exact SubmitEvent.noConfusion hmem

theorem map_insertIdx {α β : Type} (f : α → β) (a : α) :
    ∀ (n : Nat) (l : List α), (l.insertIdx n a).map f = (l.map f).insertIdx n (f a)
  | 0, _ => rfl
  | _ + 1, [] => rfl
  | n + 1, b :: t => by
    simp only [List.insertIdx_succ_cons, List.map_cons]
    rw [map_insertIdx f a n t]

theorem map_eraseIdx {α β : Type} (f : α → β) :
    ∀ (l : List α) (n : Nat), (l.eraseIdx n).map f = (l.map f).eraseIdx n
  | [], _ => rfl
  | _ :: _, 0 => rfl
  | b :: t, n + 1 => by
    simp only [List.eraseIdx_cons_succ, List.map_cons]
    rw [map_eraseIdx f t n]

theorem mem_insertIdx_or {α : Type} {a b : α} {n : Nat} {l : List α}
    (h : a ∈ l.insertIdx n b) : a = b ∨ a ∈ l := by
  rcases le_or_lt n l.length with hle | hlt
  · exact (List.mem_insertIdx hle).mp h
  · rw [List.insertIdx_of_length_lt l b n hlt] at h
    exact Or.inr h

theorem nodup_insertIdx {α : Type} {a : α} :
    ∀ (l : List α) (n : Nat), a ∉ l → l.Nodup → (l.insertIdx n a).Nodup := by
  intro l
  induction l with
  | nil =>
    intro n _ _
    cases n <;> simp
  | cons b t ih =>
    intro n ha hl
    rcases List.nodup_cons.mp hl with ⟨hbt, ht⟩
    cases n with
    | zero =>
      rw [List.insertIdx_zero]
      exact List.nodup_cons.mpr ⟨ha, hl⟩
    | succ m =>
      rw [List.insertIdx_succ_cons]
      refine List.nodup_cons.mpr ⟨?_, ih m (fun hat => ha (List.mem_cons_of_mem b hat)) ht⟩
      intro hmem
      rcases mem_insertIdx_or hmem with rfl | hmm
      · exact ha (List.mem_cons_self b t)
      · exact hbt hmm

theorem cons_set_perm {α : Type} :
    ∀ (l : List α) (m : Nat) (x y : α), l[m]? = some y →
      List.Perm (y :: l.set m x) (x :: l) := by
  intro l
  induction l with
  | nil =>
    intro m x y h
    simp at h
  | cons b t ih =>
    intro m x y h
    cases m with
    | zero =>
      simp only [List.getElem?_cons_zero, Option.some.injEq] at h
      subst h
      rw [List.set_cons_zero]
      exact List.Perm.swap x b t
    | succ k =>
      simp only [List.getElem?_cons_succ] at h
      rw [List.set_cons_succ]
      exact ((List.Perm.swap b y _).trans ((ih k x y h).cons b)).trans (List.Perm.swap x b t)

theorem set_set_swap_perm {α : Type} :
    ∀ (l : List α) (i j : Nat) (x y : α), l[i]? = some x → l[j]? = some y →
      List.Perm ((l.set i y).set j x) l := by
  intro l
  induction l with
  | nil =>
    intro i j x y hx _
    simp at hx
  | cons b t ih =>
    intro i j x y hx hy
    cases i with
    | zero =>
      simp only [List.getElem?_cons_zero, Option.some.injEq] at hx
      subst hx
      rw [List.set_cons_zero]
      cases j with
      | zero =>
        simp only [List.getElem?_cons_zero, Option.some.injEq] at hy
        subst hy
        rw [List.set_cons_zero]
      | succ m =>
        simp only [List.getElem?_cons_succ] at hy
        rw [List.set_cons_succ]
        exact cons_set_perm t m b y hy
    | succ n =>
      simp only [List.getElem?_cons_succ] at hx
      rw [List.set_cons_succ]
      cases j with
      | zero =>
        simp only [List.getElem?_cons_zero, Option.some.injEq] at hy
        subst hy
        rw [List.set_cons_zero]
        exact cons_set_perm t n b x hx
      | succ m =>
        simp only [List.getElem?_cons_succ] at hy
        rw [List.set_cons_succ]
        exact (ih n m x y hx hy).cons b

theorem swapPairs_perm (l : List (Nat × ArrayItem)) (i j : Nat) :
    List.Perm (swapPairs l i j) l := by
  cases hx : l[i]? with
  | none =>
    cases hy : l[j]? with
    | none =>
      simp only [swapPairs, hx, hy]
      exact List.Perm.refl l
    | some y =>
      simp only [swapPairs, hx, hy]
      exact List.Perm.refl l
  | some x =>
    cases hy : l[j]? with
    | none =>
      simp only [swapPairs, hx, hy]
      exact List.Perm.refl l
    | some y =>
      simp only [swapPairs, hx, hy]
      exact set_set_swap_perm l i j x y hx hy

theorem nodup_not_mem_eraseIdx {α : Type} :
    ∀ (l : List α) (n : Nat) (a : α), l.Nodup → l[n]? = some a → a ∉ l.eraseIdx n := by
  intro l
  induction l with
  | nil =>
    intro n a _ h
    simp at h
  | cons b t ih =>
    intro n a hnd h
    rcases List.nodup_cons.mp hnd with ⟨hbt, ht⟩
    cases n with
    | zero =>
      simp only [List.getElem?_cons_zero, Option.some.injEq] at h
      subst h
      rw [List.eraseIdx_cons_zero]
      exact hbt
    | succ m =>
      simp only [List.getElem?_cons_succ] at h
      rw [List.eraseIdx_cons_succ]
      intro hmem
      rcases List.mem_cons.mp hmem with rfl | hmm
      · exact hbt (List.getElem?_mem h)
      · exact ih m a ht h hmm

theorem keys_updatePairs (l : List (Nat × ArrayItem)) (i : Nat) (it : ArrayItem) :
    (updatePairs l i it).map Prod.fst = l.map Prod.fst := by
  cases hx : l[i]? with
  | none => simp [updatePairs, hx]
  | some kx =>
    simp only [updatePairs, hx]
    induction l generalizing i with
    | nil => simp at hx
    | cons b t ih =>
      cases i with
      | zero =>
        simp only [List.getElem?_cons_zero, Option.some.injEq] at hx
        subst hx
        rw [List.set_cons_zero]
        rfl
      | succ m =>
        simp only [List.getElem?_cons_succ] at hx
        rw [List.set_cons_succ, List.map_cons, List.map_cons, ih m hx]

theorem keys_freshEntries (its : List ArrayItem) :
    ∀ k : Nat, (freshEntries k its).map Prod.fst = List.range' k its.length := by
  induction its with
  | nil =>
    intro k
    rfl
  | cons it rest ih =>
    intro k
    simp only [freshEntries, List.map_cons, List.length_cons, List.range'_succ]
    rw [ih (k + 1)]

theorem keyInv_applyArrayOp (s : ArrayState) (op : ArrayOp) (h : KeyInv s) :
    KeyInv (applyArrayOp s op) := by
  obtain ⟨hnd, hlt⟩ := h
  have hfresh : s.nextKey ∉ keysOf s := fun hmem => Nat.lt_irrefl _ (hlt _ hmem)
  cases op with
  | append it =>
    refine ⟨?_, ?_⟩
    · show ((s.entries ++ [(s.nextKey, it)]).map Prod.fst).Nodup
      rw [List.map_append]
      exact List.Nodup.append hnd (List.nodup_cons.mpr ⟨List.not_mem_nil _, List.nodup_nil⟩)
        (fun k hk hk' => hfresh (by simpa using (List.mem_singleton.mp (by simpa using hk')) ▸ hk))
    · intro k hk
      rw [keysOf] at hk
      simp only [applyArrayOp, List.map_append, List.mem_append, List.map_cons, List.map_nil,
        List.mem_singleton] at hk
      rcases hk with hk | rfl
      · exact Nat.lt_succ_of_lt (hlt k hk)
      · exact Nat.lt_succ_self _
  | prepend it =>
    refine ⟨List.nodup_cons.mpr ⟨hfresh, hnd⟩, ?_⟩
    intro k hk
    rcases List.mem_cons.mp hk with rfl | hk
    · exact Nat.lt_succ_self _
    · exact Nat.lt_succ_of_lt (hlt k hk)
  | insert i it =>
    refine ⟨?_, ?_⟩
    · show ((s.entries.insertIdx i (s.nextKey, it)).map Prod.fst).Nodup
      rw [map_insertIdx]
      exact nodup_insertIdx _ i hfresh hnd
    · intro k hk
      rw [keysOf] at hk
      simp only [applyArrayOp] at hk
      rw [map_insertIdx] at hk
      rcases mem_insertIdx_or hk with rfl | hk
      · exact Nat.lt_succ_self _
      · exact Nat.lt_succ_of_lt (hlt k hk)
  | remove i =>
    have hsub : List.Sublist ((s.entries.eraseIdx i).map Prod.fst) (s.entries.map Prod.fst) :=
      (List.eraseIdx_sublist s.entries i).map Prod.fst
    exact ⟨hsub.nodup hnd, fun k hk => hlt k (hsub.subset hk)⟩
  | swap i j =>
    have hperm : List.Perm ((swapPairs s.entries i j).map Prod.fst) (s.entries.map Prod.fst) :=
      (swapPairs_perm s.entries i j).map Prod.fst
    exact ⟨hperm.symm.nodup hnd, fun k hk => hlt k (hperm.mem_iff.mp hk)⟩
  | move src dst =>
    cases hsrc : s.entries[src]? with
    | none =>
      refine ⟨?_, ?_⟩
      · show ((movePairs s.entries src dst).map Prod.fst).Nodup
        rw [movePairs, hsrc]
        exact hnd
      · intro k hk
        rw [keysOf] at hk
        simp only [applyArrayOp, movePairs, hsrc] at hk
        exact hlt k hk
    | some x =>
      have hkey : (s.entries.map Prod.fst)[src]? = some x.1 := by
        rw [List.getElem?_map, hsrc]
        rfl
      have hsubE : List.Sublist ((s.entries.eraseIdx src).map Prod.fst) (s.entries.map Prod.fst) :=
        (List.eraseIdx_sublist s.entries src).map Prod.fst
      have hnotmem : x.1 ∉ (s.entries.eraseIdx src).map Prod.fst := by
        rw [map_eraseIdx]
        exact nodup_not_mem_eraseIdx _ src x.1 hnd hkey
      refine ⟨?_, ?_⟩
      · show ((movePairs s.entries src dst).map Prod.fst).Nodup
        rw [movePairs, hsrc, map_insertIdx]
        exact nodup_insertIdx _ dst hnotmem (hsubE.nodup hnd)
      · intro k hk
        rw [keysOf] at hk
        simp only [applyArrayOp, movePairs, hsrc] at hk
        rw [map_insertIdx] at hk
        rcases mem_insertIdx_or hk with rfl | hk
        · exact hlt _ (List.getElem?_mem hkey)
        · exact hlt k (hsubE.subset hk)
  | update i it =>
    refine ⟨?_, ?_⟩
    · show ((updatePairs s.entries i it).map Prod.fst).Nodup
      rw [keys_updatePairs]
      exact hnd
    · intro k hk
      rw [keysOf] at hk
      simp only [applyArrayOp] at hk
      rw [keys_updatePairs] at hk
      exact hlt k hk
  | replace its =>
    refine ⟨?_, ?_⟩
    · show ((freshEntries s.nextKey its).map Prod.fst).Nodup
      rw [keys_freshEntries]
      exact List.nodup_range' _ _
    · intro k hk
      rw [keysOf] at hk
      simp only [applyArrayOp] at hk
      rw [keys_freshEntries] at hk
      exact (List.mem_range'_1.mp hk).2

theorem keyInv_applyArrayOps (s : ArrayState) (ops : List ArrayOp) (h : KeyInv s) :
    KeyInv (applyArrayOps s ops) := by
  induction ops generalizing s with
  | nil => exact h
  | cons op rest ih => exact ih _ (keyInv_applyArrayOp s op h)

theorem keys_applyArrayOp_fresh (s : ArrayState) (op : ArrayOp) (k : Nat)
    (hk : k ∈ keysOf (applyArrayOp s op)) : k ∈ keysOf s ∨ s.nextKey ≤ k := by
  cases op with
  | append it =>
    rw [keysOf] at hk
    simp only [applyArrayOp, List.map_append, List.mem_append, List.map_cons, List.map_nil,
      List.mem_singleton] at hk
    rcases hk with hk | rfl
    · exact Or.inl hk
    · exact Or.inr (Nat.le_refl _)
  | prepend it =>
    rcases List.mem_cons.mp hk with rfl | hk
    · exact Or.inr (Nat.le_refl _)
    · exact Or.inl hk
  | insert i it =>
    rw [keysOf] at hk
    simp only [applyArrayOp] at hk
    rw [map_insertIdx] at hk
    rcases mem_insertIdx_or hk with rfl | hk
    · exact Or.inr (Nat.le_refl _)
    · exact Or.inl hk
  | remove i =>
    exact Or.inl (((List.eraseIdx_sublist s.entries i).map Prod.fst).subset hk)
  | swap i j =>
    exact Or.inl (((swapPairs_perm s.entries i j).map Prod.fst).mem_iff.mp hk)
  | move src dst =>
    cases hsrc : s.entries[src]? with
    | none =>
      rw [keysOf] at hk
      simp only [applyArrayOp, movePairs, hsrc] at hk
      exact Or.inl hk
    | some x =>
      rw [keysOf] at hk
      simp only [applyArrayOp, movePairs, hsrc] at hk
      rw [map_insertIdx] at hk
      rcases mem_insertIdx_or hk with rfl | hk
      · refine Or.inl ?_
        have hkey : (s.entries.map Prod.fst)[src]? = some x.1 := by
          rw [List.getElem?_map, hsrc]
          rfl
        exact List.getElem?_mem hkey
      · exact Or.inl (((List.eraseIdx_sublist s.entries src).map Prod.fst).subset hk)
  | update i it =>
    rw [keysOf] at hk
    simp only [applyArrayOp] at hk
    rw [keys_updatePairs] at hk
    exact Or.inl hk
  | replace its =>
    rw [keysOf] at hk
    simp only [applyArrayOp] at hk
    rw [keys_freshEntries] at hk
    exact Or.inr (List.mem_range'_1.mp hk).1

/-- C7: over every sequence of Array Controller operations, entry keys
stay pairwise distinct and below the fresh-key counter, a key appearing
after one operation is either an old key or a fresh one at or above the
old counter (so a key is never reused for a different logical item),
and concretely append, remove(0), append yields one entry whose key 1
differs from the removed entry key 0. -/
theorem C7_stable_keys_never_reused :
    (∀ (s : ArrayState) (ops : List ArrayOp), KeyInv s → KeyInv (applyArrayOps s ops))
    ∧ (∀ (s : ArrayState) (op : ArrayOp) (k : Nat),
        k ∈ keysOf (applyArrayOp s op) → k ∈ keysOf s ∨ s.nextKey ≤ k)
    ∧ (applyArrayOps ⟨[], 0⟩ [.append "a"]).entries = [(0, "a")]
    ∧ (applyArrayOps ⟨[], 0⟩ [.append "a", .remove 0, .append "b"]).entries = [(1, "b")]
    ∧ (1 : Nat) ≠ 0 := by
  refine ⟨keyInv_applyArrayOps, keys_applyArrayOp_fresh, rfl, rfl, Nat.one_ne_zero⟩

/-- Witness for the stable-keys theorem: the invariant holds after the
concrete append/remove/append run from the empty controller, and the
fresh key appended to a one-entry controller is at or above the old
counter. -/
theorem C7_stable_keys_never_reused_witness :
    KeyInv (applyArrayOps ⟨[], 0⟩ [.append "a", .remove 0, .append "b"])
    ∧ ((1 : Nat) ∈ keysOf (⟨[(0, "a")], 1⟩ : ArrayState) ∨ (1 : Nat) ≤ 1) := by
  constructor
  · exact C7_stable_keys_never_reused.1 ⟨[], 0⟩ [.append "a", .remove 0, .append "b"]
      ⟨List.nodup_nil, fun k hk => absurd hk (List.not_mem_nil k)⟩
  · exact C7_stable_keys_never_reused.2.1 ⟨[(0, "a")], 1⟩ (.append "b") 1
      (by simp [keysOf, applyArrayOp])

/-- Witness for the submit theorem: the valid concrete store produces
exactly the success event with its snapshot; the invalid one produces
the failure event with the aggregate error set. -/
theorem C1_submit_gates_on_validation_witness :
    (submit validStore = [.onValid [("lastName", .str "jain")]]
      ∧ (submit validStore).countP isOnValid = 1)
    ∧ submit invalidStore = [.onInvalid [("lastName", some "This is required")]] := by
  refine ⟨?_, ?_⟩
  · have h := (C1_submit_gates_on_validation validStore).1 (by rfl)
    exact ⟨h.1, h.2⟩
  · have h := (C1_submit_gates_on_validation invalidStore).2 (by decide)
    exact h.1

/-- C8 counterexample: the claim as stated fails on the modelled code.
Validating an empty required field commits an error; a subsequent
`setValue` that skips validation (spec section 4.1) changes the current
value without re-validating, leaving an error on a field whose current
value has no failed validation run. -/
theorem C8_stale_error_counterexample :
    ¬ StrongInv (vStep (vStep vInit .validate) (.setNoValidate (.str "ok"))) := by
  intro h
  obtain ⟨r, hr, h1, _⟩ := h.mp rfl
  have hrr : (FieldValue.str "", (some (some "req") : Option FieldError)) = r :=
    Option.some.inj hr
  rw [← hrr] at h1
  exact absurd h1 (by decide)

/-- C8 (amended): in every reachable state, a field error is present
exactly when the most recent validation run failed; the run value
additionally matches the current value as long as no value write skips
validation.  A `setValue` without validation preserves the former but
can break the latter. -/
theorem C8_error_iff_latest_validation_failed (s : VState) (op : VOp) :
    (WeakInv s → WeakInv (vStep s op))
    ∧ (StrongInv s → (∀ v : FieldValue, op ≠ .setNoValidate v) → StrongInv (vStep s op)) := by
  constructor
  · intro h
    cases op with
    | setNoValidate v => exact h
    | changeAndValidate v =>
      show (runRules s.rules v).isSome = true ↔ _
      constructor
      · intro he
        exact ⟨(v, runRules s.rules v), rfl, he⟩
      · rintro ⟨r, hr, h2⟩
        cases Option.some.inj hr
        exact h2
    | validate =>
      show (runRules s.rules s.current).isSome = true ↔ _
      constructor
      · intro he
        exact ⟨(s.current, runRules s.rules s.current), rfl, he⟩
      · rintro ⟨r, hr, h2⟩
        cases Option.some.inj hr
        exact h2
    | reset =>
      show (none : Option FieldError).isSome = true ↔ _
      simp [vStep]
  · intro h hne
    cases op with
    | setNoValidate v => exact absurd rfl (hne v)
    | changeAndValidate v =>
      show (runRules s.rules v).isSome = true ↔ _
      constructor
      · intro he
        exact ⟨(v, runRules s.rules v), rfl, rfl, he⟩
      · rintro ⟨r, hr, _, h2⟩
        cases Option.some.inj hr
        exact h2
    | validate =>
      show (runRules s.rules s.current).isSome = true ↔ _
      constructor
      · intro he
        exact ⟨(s.current, runRules s.rules s.current), rfl, rfl, he⟩
      · rintro ⟨r, hr, _, h2⟩
        cases Option.some.inj hr
        exact h2
    | reset =>
      show (none : Option FieldError).isSome = true ↔ _
      simp [vStep]

/-- Witness for the amended validation-state theorem: both invariants
hold after validating the initial empty required field. -/
theorem C8_error_iff_latest_validation_failed_witness :
    WeakInv (vStep vInit .validate) ∧ StrongInv (vStep vInit .validate) := by
  constructor
  · refine (C8_error_iff_latest_validation_failed vInit .validate).1 ?_
    show (none : Option FieldError).isSome = true ↔ _
    simp [vInit]
  · refine (C8_error_iff_latest_validation_failed vInit .validate).2 ?_ ?_
    · show (none : Option FieldError).isSome = true ↔ _
      simp [vInit]
    · intro v hv
      cases hv

/-- C9: the custom validate rule on firstName in Form1 succeeds exactly
on the string "archit"; on any other non-empty value the field error is
present but carries no message, so the rendered error paragraph for
firstName is empty. -/
theorem C9_firstName_custom_rule (v : FieldValue) :
    (form1FirstNameValidate v = none ↔ v = .str "archit")
    ∧ (v ≠ .str "archit" → v ≠ .str "" →
        runRules form1FirstNameRules v = some none
        ∧ renderedErrorMessage (runRules form1FirstNameRules v) = "") := by
  constructor
  · unfold form1FirstNameValidate
    by_cases h : v = .str "archit" <;> simp [h]
  · intro h1 h2
    have hempty : isEmptyValue v = false := by
      cases v with
      | str s =>
        have hs : s ≠ "" := fun hs => h2 (by rw [hs])
        simp [isEmptyValue, hs]
      | num n => rfl
    have hrun : runRules form1FirstNameRules v = some none := by
      simp [runRules, form1FirstNameRules, checkRequired, hempty,
        runBuiltins, runCustoms, form1FirstNameValidate, h1]
    exact ⟨hrun, by rw [hrun]; rfl⟩

/-- Witness for the firstName theorem: on the value "bob" the field is
in error with no message and the rendered paragraph is empty. -/
theorem C9_firstName_custom_rule_witness :
    runRules form1FirstNameRules (.str "bob") = some none
    ∧ renderedErrorMessage (runRules form1FirstNameRules (.str "bob")) = "" := by
  exact (C9_firstName_custom_rule (.str "bob")).2 (by decide) (by decide)

/-- C10: in the WatchExample, confirmPassword validation passes exactly
when its value equals the password at the moment of validation,
otherwise committing the error "Passwords must match"; writing the
password afterwards does not by itself change the committed
confirm-password error. -/
theorem C10_confirmPassword_checked_at_validation (st : WatchState) (v : String) :
    ((validateConfirmPassword st).confirmError = none ↔ st.confirmPassword = st.password)
    ∧ (st.confirmPassword ≠ st.password →
        (validateConfirmPassword st).confirmError = some (some "Passwords must match"))
    ∧ (setPassword st v).confirmError = st.confirmError := by
  refine ⟨?_, ?_, rfl⟩
  · unfold validateConfirmPassword confirmPasswordValidate
    by_cases h : st.confirmPassword = st.password <;> simp [h]
  · intro h
    simp [validateConfirmPassword, confirmPasswordValidate, h]

/-- Witness for the confirmPassword theorem: with mismatched values the
committed error is the matching message, and a later password write
leaves it unchanged. -/
theorem C10_confirmPassword_checked_at_validation_witness :
    (validateConfirmPassword ⟨"a", "b", none⟩).confirmError
      = some (some "Passwords must match") := by
  exact (C10_confirmPassword_checked_at_validation ⟨"a", "b", none⟩ "z").2.1 (by decide)

end RHF
